import Mathlib

/-!
Verification of the range-annotation engine of the RiskAssessment UI
(`src/App.tsx` and the risk-analysis view).  The engine consists of a
selection resolver (`handleTextSelection`), an annotation store
(`addComment`, `addRejection`, `removeAnnotation`, embedded here as
`removeAnn`) and an overlay renderer (`renderContentWithHighlights` in
the main view, `renderReportWithHighlights` in the risk-analysis view).

Strings are embedded as `List Char` (JS strings are sequences of code
units; none of the verified properties depend on surrogate pairs).
JS numbers holding character offsets are embedded as `Int`, since
`String.prototype.indexOf` can return `-1` and the source stores that
value without a check.
-/

namespace RiskUI

/-- A marker emitted by the renderer: `mopen` corresponds to the
`type: 'start'` markers, `mclose` to the `type: 'end'` markers. -/
inductive MType where
  | mopen : MType
  | mclose : MType
deriving DecidableEq, Repr

/-- One element of the `markers` array built by the renderers:
`{ index, type, class, id }`. -/
structure Marker where
  index : Int
  mtype : MType
  cls : List Char
  id : List Char
deriving DecidableEq, Repr

/-- The `Comment` record of `App.tsx`: `{ id, text, selectedText, startIndex, endIndex }`. -/
structure Comment where
  id : List Char
  text : List Char
  selectedText : List Char
  startIndex : Int
  endIndex : Int
deriving DecidableEq, Repr

/-- The `Rejection` record of `App.tsx`: `{ id, selectedText, startIndex, endIndex }`. -/
structure Rejection where
  id : List Char
  selectedText : List Char
  startIndex : Int
  endIndex : Int
deriving DecidableEq, Repr

/-- The `selectionIndices` state value `{ start, end }` (field `end` is a
Lean keyword, rendered as `stop`). -/
structure SelRange where
  start : Int
  stop : Int
deriving DecidableEq, Repr

/-- The highlight class literals from the source. -/
def redBase : List Char := "bg-red-500/20".data

def redEmph : List Char := "bg-red-500/40".data

def indigoBase : List Char := "bg-indigo-500/20".data

def indigoEmph : List Char := "bg-indigo-500/40".data

/-- Markers pushed for one rejection: a start marker whose class depends on
`hoveredAnnotation === rejection.id`, then an end marker with empty class. -/
def rejMarkers (hovered : Option (List Char)) : List Rejection → List Marker
  | [] => []
  | r :: rs =>
      ⟨r.startIndex, MType.mopen, if hovered = some r.id then redEmph else redBase, r.id⟩ ::
      ⟨r.endIndex, MType.mclose, [], r.id⟩ :: rejMarkers hovered rs

/-- Markers pushed for one comment, indigo-styled. -/
def comMarkers (hovered : Option (List Char)) : List Comment → List Marker
  | [] => []
  | c :: cs =>
      ⟨c.startIndex, MType.mopen, if hovered = some c.id then indigoEmph else indigoBase, c.id⟩ ::
      ⟨c.endIndex, MType.mclose, [], c.id⟩ :: comMarkers hovered cs

/-- The full `markers` array.  Both renderers build it identically:
`App.tsx` iterates `rejections.forEach` then `comments.forEach`; the
risk-analysis view iterates the spread `[...rejections, ...comments]`,
emitting the same classes via its `'text' in item` variant check. -/
def buildMarkers (rejections : List Rejection) (comments : List Comment)
    (hovered : Option (List Char)) : List Marker :=
  rejMarkers hovered rejections ++ comMarkers hovered comments

/-- Rank used for the tie-break of the `App.tsx` comparator: at equal
`index` the comparator returns `-1` when `a.type === 'end'`, so end
markers sort before start markers. -/
def mrank : MType → Int
  | MType.mclose => 0
  | MType.mopen => 1

/-- Combined sort key for the `App.tsx` comparator
`(a, b) => a.index === b.index ? (a.type === 'end' ? -1 : 1) : b.index - a.index`:
descending index, and at equal index end markers first.  The JS comparator
is inconsistent on pairs of same-type markers at the same index (it
answers `1` for both argument orders); the key below resolves those pairs
as ties, which a stable sort keeps in array order.  No verified property
depends on the relative order of same-index same-type markers. -/
def mkey (m : Marker) : Int := 2 * (-m.index) + mrank m.mtype

/-- Sort relation of the main-view renderer. -/
def rApp (a b : Marker) : Prop := mkey a ≤ mkey b

/-- Sort relation of the risk-analysis renderer, whose comparator
`(a, b) => b.index - a.index` orders by descending index only. -/
def rReport (a b : Marker) : Prop := b.index ≤ a.index

instance : DecidableRel rApp := fun a b => inferInstanceAs (Decidable (mkey a ≤ mkey b))

instance : DecidableRel rReport := fun a b => inferInstanceAs (Decidable (b.index ≤ a.index))

instance : IsTotal Marker rApp := ⟨fun a b => Int.le_total (mkey a) (mkey b)⟩

instance : IsTrans Marker rApp := ⟨fun _ _ _ h h' => Int.le_trans h h'⟩

instance : IsTotal Marker rReport := ⟨fun a b => Int.le_total b.index a.index⟩

instance : IsTrans Marker rReport := ⟨fun _ _ _ h h' => Int.le_trans h' h⟩

/-- `markers.sort(...)` of the main view.  `Array.prototype.sort` is
stable; `List.insertionSort` with a non-strict total preorder is the
stable sort. -/
def sortApp (ms : List Marker) : List Marker := List.insertionSort rApp ms

/-- `markers.sort((a, b) => b.index - a.index)` of the risk-analysis view. -/
def sortReport (ms : List Marker) : List Marker := List.insertionSort rReport ms

/-- The spliced tag text of a marker: for a start marker
`<span class="CLS" data-id="ID">`, for an end marker `</span>`. -/
def tagChars (m : Marker) : List Char :=
  match m.mtype with
  | MType.mopen =>
      "<span class=\"".data ++ m.cls ++ "\" data-id=\"".data ++ m.id ++ "\">".data
  | MType.mclose => "</span>".data

/-- JS `String.prototype.slice` index normalisation: a negative index
counts from the end of the string (clamped at 0), and indices beyond the
length are clamped to the length. -/
def jsClamp (len : Nat) (i : Int) : Nat :=
  if i < 0 then ((len : Int) + i).toNat else min i.toNat len

/-- One splice step of the renderers:
`result = result.slice(0, marker.index) + span + result.slice(marker.index)`. -/
def insertTag (s : List Char) (m : Marker) : List Char :=
  s.take (jsClamp s.length m.index) ++ tagChars m ++ s.drop (jsClamp s.length m.index)

/-- `markers.forEach(marker => ...)` over the already-sorted marker list. -/
def spliceAll (s : List Char) (ms : List Marker) : List Char := ms.foldl insertTag s

/-- `renderContentWithHighlights` of `App.tsx` (lines 122-171), as a pure
function of the `content`, `rejections`, `comments` and
`hoveredAnnotation` state it reads. -/
def renderContentWithHighlights (content : List Char) (rejections : List Rejection)
    (comments : List Comment) (hovered : Option (List Char)) : List Char :=
  spliceAll content (sortApp (buildMarkers rejections comments hovered))

/-- `renderReportWithHighlights` of the risk-analysis view (lines 141-174),
identical except for the index-only sort comparator. -/
def renderReportWithHighlights (riskReport : List Char) (rejections : List Rejection)
    (comments : List Comment) (hovered : Option (List Char)) : List Char :=
  spliceAll riskReport (sortReport (buildMarkers rejections comments hovered))

/-- A segment of the render output: either a run of original text or one
inserted tag.  Used to state that the output decomposes into the original
characters interleaved with the inserted tags. -/
inductive Seg where
  | txt : List Char → Seg
  | tag : List Char → Seg
deriving DecidableEq, Repr

/-- The decomposition of the output produced by splicing a descending
marker list into `text`: recursively decompose the prefix, then the
head marker's tag, then the untouched suffix. -/
def segsOf (text : List Char) : List Marker → List Seg
  | [] => [Seg.txt text]
  | m :: ms =>
      segsOf (text.take m.index.toNat) ms ++
        [Seg.tag (tagChars m), Seg.txt (text.drop m.index.toNat)]

/-- Concatenation of all segments (the rendered markup). -/
def flattenSegs : List Seg → List Char
  | [] => []
  | Seg.txt s :: rest => s ++ flattenSegs rest
  | Seg.tag s :: rest => s ++ flattenSegs rest

/-- Concatenation of the text segments only: the output with every
inserted span tag stripped. -/
def stripSegs : List Seg → List Char
  | [] => []
  | Seg.txt s :: rest => s ++ stripSegs rest
  | Seg.tag _ :: rest => stripSegs rest

/-- The inserted tags, in the order the segments carry them. -/
def tagSegs : List Seg → List (List Char)
  | [] => []
  | Seg.txt _ :: rest => tagSegs rest
  | Seg.tag s :: rest => s :: tagSegs rest

/-- The component state touched by the annotation engine (the relevant
`useState` cells of `App.tsx`). -/
structure EngineState where
  comments : List Comment
  rejections : List Rejection
  selectedText : List Char
  selectionIndices : Option SelRange
  commentInput : List Char
  showCommentInput : Bool
deriving DecidableEq, Repr

/-- Initial values of the state cells. -/
def initState : EngineState :=
  { comments := [], rejections := [], selectedText := [],
    selectionIndices := none, commentInput := [], showCommentInput := false }

/-- Leftmost-match substring search: `some s` when `needle` occurs in
`hay` first at offset `s`, `none` otherwise.  `String.prototype.indexOf`
with an empty needle returns `0`, matched by `isPrefixOf [] = true`. -/
def firstMatch : List Char → List Char → Option Nat
  | hay, needle =>
    if needle.isPrefixOf hay then some 0
    else
      match hay with
      | [] => none
      | _ :: t => (firstMatch t needle).map (· + 1)

/-- JS `hay.indexOf(needle)`: the first match offset, or `-1`. -/
def jsIndexOf (hay needle : List Char) : Int :=
  match firstMatch hay needle with
  | some s => (s : Int)
  | none => -1

/-- `handleTextSelection` (App.tsx lines 72-88): given the selection text
and the container's text content (the DOM values the handler reads), it
records the selection when the selected text is non-empty.  Note the
source stores `indexOf`'s result without checking for `-1`. -/
def handleTextSelection (st : EngineState) (text containerContent : List Char) : EngineState :=
  if 0 < text.length then
    { st with
      selectedText := text,
      selectionIndices :=
        some ⟨jsIndexOf containerContent text, jsIndexOf containerContent text + text.length⟩ }
  else st

/-- The JS whitespace characters relevant to `String.prototype.trim`
(ASCII subset; the claims only need "trims to empty"). -/
def isJsWhitespace (c : Char) : Bool :=
  c = ' ' || c = '\t' || c = '\n' || c = '\r' || c = '\x0b' || c = '\x0c'

/-- `String.prototype.trim`. -/
def jsTrim (s : List Char) : List Char :=
  ((s.dropWhile isJsWhitespace).reverse.dropWhile isJsWhitespace).reverse

/-- `addComment` (App.tsx lines 90-105): guarded by the JS truthiness of
`selectedText`, `selectionIndices` and `commentInput.trim()`.  The `now`
parameter is the value `Date.now()` returns at this call; the id stored
is its decimal string. -/
def addComment (st : EngineState) (now : Nat) : EngineState :=
  match st.selectionIndices with
  | some r =>
      if st.selectedText ≠ [] ∧ jsTrim st.commentInput ≠ [] then
        { st with
          comments := st.comments ++
            [⟨(Nat.repr now).data, st.commentInput, st.selectedText, r.start, r.stop⟩],
          selectedText := [], selectionIndices := none,
          showCommentInput := false, commentInput := [] }
      else st
  | none => st

/-- `addRejection` (App.tsx lines 107-120): same guard minus the note
check; `commentInput` is not cleared here, matching the source. -/
def addRejection (st : EngineState) (now : Nat) : EngineState :=
  match st.selectionIndices with
  | some r =>
      if st.selectedText ≠ [] then
        { st with
          rejections := st.rejections ++
            [⟨(Nat.repr now).data, st.selectedText, r.start, r.stop⟩],
          selectedText := [], selectionIndices := none, showCommentInput := false }
      else st
  | none => st

/-- `removeAnnotation` (App.tsx lines 173-176): one removal path filtering
both lists by id.  (Lean name shortened; the source calls it
`removeAnnotation`.) -/
def removeAnn (st : EngineState) (i : List Char) : EngineState :=
  { st with
    comments := st.comments.filter (fun c => c.id ≠ i),
    rejections := st.rejections.filter (fun r => r.id ≠ i) }

/-- User-interface events that drive the engine state. -/
inductive Ev where
  | select : List Char → List Char → Ev
  | setInput : List Char → Ev
  | addC : Nat → Ev
  | addR : Nat → Ev
  | remove : List Char → Ev
deriving DecidableEq, Repr

/-- One event step. -/
def step (st : EngineState) : Ev → EngineState
  | Ev.select t c => handleTextSelection st t c
  | Ev.setInput s => { st with commentInput := s }
  | Ev.addC now => addComment st now
  | Ev.addR now => addRejection st now
  | Ev.remove i => removeAnn st i

/-- Run a trace of events. -/
def run (st : EngineState) : List Ev → EngineState
  | [] => st
  | e :: t => run (step st e) t

/-- The id strings generated by the add events of a trace (every
`Date.now().toString()` evaluation, successful or not). -/
def genIds : List Ev → List (List Char)
  | [] => []
  | Ev.addC n :: t => (Nat.repr n).data :: genIds t
  | Ev.addR n :: t => (Nat.repr n).data :: genIds t
  | _ :: t => genIds t

/-- All annotation ids currently in the store. -/
def idsOf (st : EngineState) : List (List Char) :=
  st.comments.map Comment.id ++ st.rejections.map Rejection.id

/-- The spec's substring notation `CanonicalText[start:end]`, half-open,
over the `Int`-valued indices the store holds. -/
def sliceStr (s : List Char) (i j : Int) : List Char :=
  (s.drop i.toNat).take (j - i).toNat

/-! ### Supporting lemmas about the renderer -/

/-- Descending-index marker lists (the shape produced by both sorts). -/
def descIdx (ms : List Marker) : Prop :=
  List.Pairwise (fun a b => b.index ≤ a.index) ms

/-- All marker indices lie inside `[0, len]`. -/
def boundedIdx (len : Nat) (ms : List Marker) : Prop :=
  ∀ m ∈ ms, 0 ≤ m.index ∧ m.index ≤ (len : Int)

theorem jsClamp_le (len : Nat) (i : Int) : jsClamp len i ≤ len := by
  unfold jsClamp
  split
  · omega
  · exact min_le_right _ _

theorem jsClamp_of_bounds {len : Nat} {i : Int} (h0 : 0 ≤ i) (h1 : i ≤ (len : Int)) :
    jsClamp len i = i.toNat := by
  unfold jsClamp
  rw [if_neg (by omega)]
  omega

theorem length_insertTag (s : List Char) (m : Marker) :
    (insertTag s m).length = s.length + (tagChars m).length := by
  have h := jsClamp_le s.length m.index
  simp [insertTag]
  omega

theorem insertTag_append (s t : List Char) (m : Marker) (h0 : 0 ≤ m.index)
    (h1 : m.index.toNat ≤ s.length) : insertTag (s ++ t) m = insertTag s m ++ t := by
  have hc : jsClamp (s ++ t).length m.index = m.index.toNat := by
    apply jsClamp_of_bounds h0
    simp only [List.length_append]
    omega
  have hc' : jsClamp s.length m.index = m.index.toNat := jsClamp_of_bounds h0 (by omega)
  simp only [insertTag, hc, hc', List.take_append_eq_append_take, List.drop_append_eq_append_drop]
  have hz : m.index.toNat - s.length = 0 := by omega
  simp [hz, List.append_assoc]

theorem spliceAll_append (ms : List Marker) : ∀ s t : List Char,
    (∀ m ∈ ms, 0 ≤ m.index ∧ m.index.toNat ≤ s.length) →
    spliceAll (s ++ t) ms = spliceAll s ms ++ t := by
  induction ms with
  | nil => intro s t _; rfl
  | cons m rest ih =>
      intro s t h
      have hm := h m (by simp)
      have : spliceAll (s ++ t) (m :: rest) = spliceAll (insertTag (s ++ t) m) rest := rfl
      rw [this, insertTag_append s t m hm.1 hm.2]
      have : spliceAll s (m :: rest) = spliceAll (insertTag s m) rest := rfl
      rw [this]
      apply ih
      intro m' hm'
      have := h m' (by simp [hm'])
      refine ⟨this.1, ?_⟩
      rw [length_insertTag]
      omega

theorem flattenSegs_append (a b : List Seg) :
    flattenSegs (a ++ b) = flattenSegs a ++ flattenSegs b := by
  induction a with
  | nil => rfl
  | cons s rest ih => cases s <;> simp [flattenSegs, ih]

theorem stripSegs_append (a b : List Seg) :
    stripSegs (a ++ b) = stripSegs a ++ stripSegs b := by
  induction a with
  | nil => rfl
  | cons s rest ih => cases s <;> simp [stripSegs, ih]

theorem tagSegs_append (a b : List Seg) :
    tagSegs (a ++ b) = tagSegs a ++ tagSegs b := by
  induction a with
  | nil => rfl
  | cons s rest ih => cases s <;> simp [tagSegs, ih]

/-- Closed form of the splice loop: on a descending, in-bounds marker
list the output is the original text interleaved with the inserted tags,
as described by `segsOf`. -/
theorem spliceAll_eq_flattenSegs (ms : List Marker) : ∀ text : List Char,
    descIdx ms → boundedIdx text.length ms →
    spliceAll text ms = flattenSegs (segsOf text ms) := by
  induction ms with
  | nil => intro text _ _; simp [spliceAll, segsOf, flattenSegs]
  | cons m rest ih =>
      intro text hd hb
      have hm := hb m (by simp)
      have hj : jsClamp text.length m.index = m.index.toNat := jsClamp_of_bounds hm.1 hm.2
      have hrest : ∀ m' ∈ rest, 0 ≤ m'.index ∧ m'.index.toNat ≤ m.index.toNat := by
        intro m' hm'
        have h1 := (hb m' (by simp [hm'])).1
        have h2 := (List.pairwise_cons.mp hd).1 m' hm'
        omega
      have step1 : spliceAll text (m :: rest) = spliceAll (insertTag text m) rest := rfl
      have step2 : insertTag text m =
          text.take m.index.toNat ++ (tagChars m ++ text.drop m.index.toNat) := by
        simp [insertTag, hj]
      rw [step1, step2,
        spliceAll_append rest (text.take m.index.toNat) (tagChars m ++ text.drop m.index.toNat)
          (by
            intro m' hm'
            refine ⟨(hrest m' hm').1, ?_⟩
            have := (hrest m' hm').2
            simp only [List.length_take]
            omega)]
      rw [ih (text.take m.index.toNat) (List.pairwise_cons.mp hd).2
        (by
          intro m' hm'
          refine ⟨(hb m' (by simp [hm'])).1, ?_⟩
          have h2 := (hrest m' hm').2
          simp only [List.length_take]
          omega)]
      simp [segsOf, flattenSegs_append, flattenSegs, List.append_assoc]

/-- Dropping the inserted tags from the decomposition gives back exactly
the original text: no characters are lost or duplicated. -/
theorem stripSegs_segsOf (ms : List Marker) : ∀ text : List Char,
    descIdx ms → boundedIdx text.length ms →
    stripSegs (segsOf text ms) = text := by
  induction ms with
  | nil => intro text _ _; simp [segsOf, stripSegs]
  | cons m rest ih =>
      intro text hd hb
      have hm := hb m (by simp)
      have hrest : ∀ m' ∈ rest, 0 ≤ m'.index ∧ m'.index ≤ ((text.take m.index.toNat).length : Int) := by
        intro m' hm'
        have h1 := (hb m' (by simp [hm'])).1
        have h2 := (List.pairwise_cons.mp hd).1 m' hm'
        simp only [List.length_take]
        omega
      simp only [segsOf, stripSegs_append, stripSegs]
      rw [ih (text.take m.index.toNat) (List.pairwise_cons.mp hd).2 hrest]
      simp

/-- The decomposition carries the tags in reverse processing order: the
marker processed last (lowest sort key) appears leftmost in the output. -/
theorem tagSegs_segsOf (ms : List Marker) : ∀ text : List Char,
    tagSegs (segsOf text ms) = (ms.map tagChars).reverse := by
  induction ms with
  | nil => intro text; simp [segsOf, tagSegs]
  | cons m rest ih =>
      intro text
      simp [segsOf, tagSegs_append, tagSegs, ih]

theorem mrank_bounds (t : MType) : 0 ≤ mrank t ∧ mrank t ≤ 1 := by
  cases t <;> simp [mrank]

theorem rApp_index_le {a b : Marker} (h : rApp a b) : b.index ≤ a.index := by
  have ha := mrank_bounds a.mtype
  have hb := mrank_bounds b.mtype
  simp only [rApp, mkey] at h
  omega

theorem sortApp_desc (ms : List Marker) : descIdx (sortApp ms) :=
  (List.sorted_insertionSort rApp ms).imp fun h => rApp_index_le h

theorem sortReport_desc (ms : List Marker) : descIdx (sortReport ms) :=
  (List.sorted_insertionSort rReport ms).imp fun h => h

theorem mem_sortApp {m : Marker} {ms : List Marker} : m ∈ sortApp ms ↔ m ∈ ms :=
  List.mem_insertionSort rApp

theorem mem_sortReport {m : Marker} {ms : List Marker} : m ∈ sortReport ms ↔ m ∈ ms :=
  List.mem_insertionSort rReport

/-- Bounds on the annotation ranges, as the data model states them:
offsets into the canonical text of length `len`. -/
def annBounds (len : Nat) (rs : List Rejection) (cs : List Comment) : Prop :=
  (∀ r ∈ rs, 0 ≤ r.startIndex ∧ r.startIndex ≤ (len : Int) ∧
      0 ≤ r.endIndex ∧ r.endIndex ≤ (len : Int)) ∧
  (∀ c ∈ cs, 0 ≤ c.startIndex ∧ c.startIndex ≤ (len : Int) ∧
      0 ≤ c.endIndex ∧ c.endIndex ≤ (len : Int))

instance (len : Nat) (rs : List Rejection) (cs : List Comment) :
    Decidable (annBounds len rs cs) := by
  unfold annBounds
  exact inferInstance

theorem mem_rejMarkers {hovered : Option (List Char)} {m : Marker} :
    ∀ {rs : List Rejection}, m ∈ rejMarkers hovered rs →
      ∃ r ∈ rs, m.index = r.startIndex ∨ m.index = r.endIndex := by
  intro rs
  induction rs with
  | nil => intro h; simp [rejMarkers] at h
  | cons r rest ih =>
      intro h
      simp only [rejMarkers, List.mem_cons] at h
      rcases h with h | h | h
      · exact ⟨r, by simp, by rw [h]; left; rfl⟩
      · exact ⟨r, by simp, by rw [h]; right; rfl⟩
      · obtain ⟨r', hr', hi⟩ := ih h
        exact ⟨r', by simp [hr'], hi⟩

theorem mem_comMarkers {hovered : Option (List Char)} {m : Marker} :
    ∀ {cs : List Comment}, m ∈ comMarkers hovered cs →
      ∃ c ∈ cs, m.index = c.startIndex ∨ m.index = c.endIndex := by
  intro cs
  induction cs with
  | nil => intro h; simp [comMarkers] at h
  | cons c rest ih =>
      intro h
      simp only [comMarkers, List.mem_cons] at h
      rcases h with h | h | h
      · exact ⟨c, by simp, by rw [h]; left; rfl⟩
      · exact ⟨c, by simp, by rw [h]; right; rfl⟩
      · obtain ⟨c', hc', hi⟩ := ih h
        exact ⟨c', by simp [hc'], hi⟩

theorem buildMarkers_bounded {len : Nat} {rs : List Rejection} {cs : List Comment}
    {hovered : Option (List Char)} (h : annBounds len rs cs) :
    boundedIdx len (buildMarkers rs cs hovered) := by
  intro m hm
  simp only [buildMarkers, List.mem_append] at hm
  rcases hm with hm | hm
  · obtain ⟨r, hr, hi⟩ := mem_rejMarkers hm
    have := h.1 r hr
    rcases hi with hi | hi <;> rw [hi] <;> omega
  · obtain ⟨c, hc, hi⟩ := mem_comMarkers hm
    have := h.2 c hc
    rcases hi with hi | hi <;> rw [hi] <;> omega

/-! ### Supporting lemmas about the selection resolver -/

theorem firstMatch_spec {needle : List Char} :
    ∀ {hay : List Char} {s : Nat}, firstMatch hay needle = some s →
      needle <+: hay.drop s ∧ ∀ j < s, ¬ needle <+: hay.drop j := by
  intro hay
  induction hay with
  | nil =>
      intro s h
      by_cases hp : needle.isPrefixOf ([] : List Char)
      · rw [firstMatch, if_pos hp] at h
        have hs : s = 0 := by injection h with h'; omega
        subst hs
        refine ⟨?_, by omega⟩
        simpa using List.isPrefixOf_iff_prefix.mp hp
      · rw [firstMatch, if_neg hp] at h
        exact absurd h (by simp)
  | cons a t ih =>
      intro s h
      by_cases hp : needle.isPrefixOf (a :: t)
      · rw [firstMatch, if_pos hp] at h
        have hs : s = 0 := by injection h with h'; omega
        subst hs
        exact ⟨by simpa using List.isPrefixOf_iff_prefix.mp hp, by omega⟩
      · rw [firstMatch, if_neg hp] at h
        simp only [Option.map_eq_some'] at h
        obtain ⟨s', hs', rfl⟩ := h
        obtain ⟨h1, h2⟩ := ih hs'
        refine ⟨by simpa using h1, ?_⟩
        intro j hj
        cases j with
        | zero =>
            simp only [List.drop_zero]
            intro hc
            exact hp (List.isPrefixOf_iff_prefix.mpr hc)
        | succ j' =>
            simp only [List.drop_succ_cons]
            exact h2 j' (by omega)

theorem firstMatch_none {needle : List Char} :
    ∀ {hay : List Char}, firstMatch hay needle = none →
      ∀ j, ¬ needle <+: hay.drop j := by
  intro hay
  induction hay with
  | nil =>
      intro h j hc
      have hp : needle.isPrefixOf ([] : List Char) := by
        apply List.isPrefixOf_iff_prefix.mpr
        simpa using hc
      rw [firstMatch, if_pos hp] at h
      exact absurd h (by simp)
  | cons a t ih =>
      intro h j
      by_cases hp : needle.isPrefixOf (a :: t)
      · rw [firstMatch, if_pos hp] at h
        exact absurd h (by simp)
      · rw [firstMatch, if_neg hp] at h
        simp only [Option.map_eq_none'] at h
        cases j with
        | zero =>
            simp only [List.drop_zero]
            intro hc
            exact hp (List.isPrefixOf_iff_prefix.mpr hc)
        | succ j' =>
            simp only [List.drop_succ_cons]
            exact ih h j'

theorem firstMatch_isSome {needle hay : List Char}
    (h : ∃ j, needle <+: hay.drop j) : (firstMatch hay needle).isSome := by
  obtain ⟨j, hj⟩ := h
  cases hm : firstMatch hay needle with
  | none => exact absurd hj (firstMatch_none hm j)
  | some s => rfl

/-! ### Supporting lemmas: hover state only retints its own span -/

/-- Positionwise correspondence of the marker lists produced under two
hover states `h1` and `h2`: same offset, same type, same id, and the
class may differ only on an open marker of a hovered annotation. -/
def markerShapeRel (h1 h2 : Option (List Char)) (a b : Marker) : Prop :=
  a.index = b.index ∧ a.mtype = b.mtype ∧ a.id = b.id ∧
    (a.cls = b.cls ∨ (a.mtype = MType.mopen ∧ (h1 = some a.id ∨ h2 = some a.id)))

theorem markerShapeRel_mkey {h1 h2 : Option (List Char)} {a b : Marker}
    (h : markerShapeRel h1 h2 a b) : mkey a = mkey b ∧ a.index = b.index := by
  obtain ⟨hi, ht, _, _⟩ := h
  constructor
  · simp [mkey, hi, ht]
  · exact hi

theorem forall2_orderedInsert (r : Marker → Marker → Prop) [DecidableRel r]
    (R : Marker → Marker → Prop)
    (hcong : ∀ a b a' b', R a b → R a' b' → (r a a' ↔ r b b')) :
    ∀ {l1 l2 : List Marker} {a b : Marker}, R a b → List.Forall₂ R l1 l2 →
      List.Forall₂ R (l1.orderedInsert r a) (l2.orderedInsert r b) := by
  intro l1
  induction l1 with
  | nil =>
      intro l2 a b hab h
      cases h
      exact List.Forall₂.cons hab List.Forall₂.nil
  | cons x t ih =>
      intro l2 a b hab h
      cases h with
      | cons hxy ht =>
          rename_i y ys
          by_cases hr : r a x
          · have hr' : r b y := (hcong a b x y hab hxy).mp hr
            rw [List.orderedInsert, if_pos hr, List.orderedInsert, if_pos hr']
            exact List.Forall₂.cons hab (List.Forall₂.cons hxy ht)
          · have hr' : ¬ r b y := fun hc => hr ((hcong a b x y hab hxy).mpr hc)
            rw [List.orderedInsert, if_neg hr, List.orderedInsert, if_neg hr']
            exact List.Forall₂.cons hxy (ih hab ht)

theorem forall2_insertionSort (r : Marker → Marker → Prop) [DecidableRel r]
    (R : Marker → Marker → Prop)
    (hcong : ∀ a b a' b', R a b → R a' b' → (r a a' ↔ r b b')) :
    ∀ {l1 l2 : List Marker}, List.Forall₂ R l1 l2 →
      List.Forall₂ R (l1.insertionSort r) (l2.insertionSort r) := by
  intro l1
  induction l1 with
  | nil =>
      intro l2 h
      cases h
      exact List.Forall₂.nil
  | cons x t ih =>
      intro l2 h
      cases h with
      | cons hxy ht =>
          exact forall2_orderedInsert r R hcong hxy (ih ht)

theorem forall2_buildMarkers (rs : List Rejection) (cs : List Comment)
    (h1 h2 : Option (List Char)) :
    List.Forall₂ (markerShapeRel h1 h2) (buildMarkers rs cs h1) (buildMarkers rs cs h2) := by
  have hrej : ∀ rs' : List Rejection,
      List.Forall₂ (markerShapeRel h1 h2) (rejMarkers h1 rs') (rejMarkers h2 rs') := by
    intro rs'
    induction rs' with
    | nil => exact List.Forall₂.nil
    | cons r rest ih =>
        refine List.Forall₂.cons ?_ (List.Forall₂.cons ?_ ih)
        · refine ⟨rfl, rfl, rfl, ?_⟩
          by_cases ha : h1 = some r.id
          · exact Or.inr ⟨rfl, Or.inl ha⟩
          · by_cases hb : h2 = some r.id
            · exact Or.inr ⟨rfl, Or.inr hb⟩
            · exact Or.inl (by simp [ha, hb])
        · exact ⟨rfl, rfl, rfl, Or.inl rfl⟩
  have hcom : ∀ cs' : List Comment,
      List.Forall₂ (markerShapeRel h1 h2) (comMarkers h1 cs') (comMarkers h2 cs') := by
    intro cs'
    induction cs' with
    | nil => exact List.Forall₂.nil
    | cons c rest ih =>
        refine List.Forall₂.cons ?_ (List.Forall₂.cons ?_ ih)
        · refine ⟨rfl, rfl, rfl, ?_⟩
          by_cases ha : h1 = some c.id
          · exact Or.inr ⟨rfl, Or.inl ha⟩
          · by_cases hb : h2 = some c.id
            · exact Or.inr ⟨rfl, Or.inr hb⟩
            · exact Or.inl (by simp [ha, hb])
        · exact ⟨rfl, rfl, rfl, Or.inl rfl⟩
  exact List.rel_append (hrej rs) (hcom cs)

/-! ### Supporting lemmas: generated ids account for every stored id -/

theorem comments_handleTextSelection (st : EngineState) (t c : List Char) :
    (handleTextSelection st t c).comments = st.comments ∧
      (handleTextSelection st t c).rejections = st.rejections := by
  unfold handleTextSelection
  split <;> exact ⟨rfl, rfl⟩

/-- `addComment` is a strict no-op whenever the guard fails. -/
theorem addComment_noop (st : EngineState) (now : Nat)
    (h : st.selectedText = [] ∨ st.selectionIndices = none ∨ jsTrim st.commentInput = []) :
    addComment st now = st := by
  unfold addComment
  cases hsel : st.selectionIndices with
  | none => rfl
  | some r =>
      dsimp only
      rw [if_neg]
      intro ⟨h1, h2⟩
      rcases h with h | h | h
      · exact h1 h
      · rw [hsel] at h; exact absurd h (by simp)
      · exact h2 h

/-- `addComment` on a successful guard: appends the new comment and
clears the transient selection state. -/
theorem addComment_success (st : EngineState) (now : Nat) (r : SelRange)
    (hsel : st.selectionIndices = some r) (h1 : st.selectedText ≠ [])
    (h2 : jsTrim st.commentInput ≠ []) :
    addComment st now =
      { st with
        comments := st.comments ++
          [⟨(Nat.repr now).data, st.commentInput, st.selectedText, r.start, r.stop⟩],
        selectedText := [], selectionIndices := none,
        showCommentInput := false, commentInput := [] } := by
  unfold addComment
  rw [hsel]
  exact if_pos ⟨h1, h2⟩

/-- `addRejection` is a strict no-op whenever the guard fails. -/
theorem addRejection_noop (st : EngineState) (now : Nat)
    (h : st.selectedText = [] ∨ st.selectionIndices = none) :
    addRejection st now = st := by
  unfold addRejection
  cases hsel : st.selectionIndices with
  | none => rfl
  | some r =>
      dsimp only
      rw [if_neg]
      intro h1
      rcases h with h | h
      · exact h1 h
      · rw [hsel] at h; exact absurd h (by simp)

/-- `addRejection` on a successful guard. -/
theorem addRejection_success (st : EngineState) (now : Nat) (r : SelRange)
    (hsel : st.selectionIndices = some r) (h1 : st.selectedText ≠ []) :
    addRejection st now =
      { st with
        rejections := st.rejections ++
          [⟨(Nat.repr now).data, st.selectedText, r.start, r.stop⟩],
        selectedText := [], selectionIndices := none, showCommentInput := false } := by
  unfold addRejection
  rw [hsel]
  exact if_pos h1

theorem coe_le_add_singleton {l1 l2 : List (List Char)} {a : List Char}
    (h : List.Perm l1 (l2 ++ [a])) :
    (↑l1 : Multiset (List Char)) ≤ ↑l2 + ↑[a] := by
  rw [Multiset.coe_eq_coe.mpr h, ← Multiset.coe_add]

theorem idsOf_step_le (st : EngineState) (e : Ev) :
    (↑(idsOf (step st e)) : Multiset (List Char)) ≤ ↑(idsOf st) + ↑(genIds [e]) := by
  cases e with
  | select t c =>
      have h := comments_handleTextSelection st t c
      simp [step, idsOf, h.1, h.2, genIds]
  | setInput s => simp [step, idsOf, genIds]
  | addC now =>
      show (↑(idsOf (addComment st now)) : Multiset (List Char)) ≤ _
      by_cases h1 : st.selectedText = []
      · rw [addComment_noop st now (Or.inl h1)]; exact Multiset.le_add_right _ _
      by_cases h2 : jsTrim st.commentInput = []
      · rw [addComment_noop st now (Or.inr (Or.inr h2))]; exact Multiset.le_add_right _ _
      cases hsel : st.selectionIndices with
      | none => rw [addComment_noop st now (Or.inr (Or.inl hsel))]; exact Multiset.le_add_right _ _
      | some r =>
          rw [addComment_success st now r hsel h1 h2]
          apply coe_le_add_singleton
          simp only [idsOf, genIds, List.map_append]
          rw [List.append_assoc, List.append_assoc]
          exact List.Perm.append_left _ List.perm_append_comm
  | addR now =>
      show (↑(idsOf (addRejection st now)) : Multiset (List Char)) ≤ _
      by_cases h1 : st.selectedText = []
      · rw [addRejection_noop st now (Or.inl h1)]; exact Multiset.le_add_right _ _
      cases hsel : st.selectionIndices with
      | none => rw [addRejection_noop st now (Or.inr hsel)]; exact Multiset.le_add_right _ _
      | some r =>
          rw [addRejection_success st now r hsel h1]
          apply coe_le_add_singleton
          simp only [idsOf, genIds, List.map_append, List.map_cons, List.map_nil]
          rw [← List.append_assoc]
  | remove i =>
      have hsub : List.Sublist
          ((st.comments.filter (fun c => c.id ≠ i)).map Comment.id ++
            (st.rejections.filter (fun r => r.id ≠ i)).map Rejection.id)
          (st.comments.map Comment.id ++ st.rejections.map Rejection.id) :=
        List.Sublist.append ((List.filter_sublist _).map _) ((List.filter_sublist _).map _)
      calc (↑(idsOf (step st (Ev.remove i))) : Multiset (List Char))
          ≤ ↑(idsOf st) := Multiset.coe_le.mpr hsub.subperm
        _ ≤ ↑(idsOf st) + ↑(genIds [Ev.remove i]) := Multiset.le_add_right _ _

theorem genIds_cons (e : Ev) (t : List Ev) :
    genIds (e :: t) = genIds [e] ++ genIds t := by
  cases e <;> rfl

theorem idsOf_run_le : ∀ (tr : List Ev) (st : EngineState),
    (↑(idsOf (run st tr)) : Multiset (List Char)) ≤ ↑(idsOf st) + ↑(genIds tr) := by
  intro tr
  induction tr with
  | nil => intro st; simp [run, genIds]
  | cons e t ih =>
      intro st
      have h1 : run st (e :: t) = run (step st e) t := rfl
      rw [h1]
      calc (↑(idsOf (run (step st e) t)) : Multiset (List Char)) ≤
            ↑(idsOf (step st e)) + ↑(genIds t) := ih (step st e)
        _ ≤ (↑(idsOf st) + ↑(genIds [e])) + ↑(genIds t) := by
              exact add_le_add_right (idsOf_step_le st e) _
        _ = ↑(idsOf st) + ↑(genIds (e :: t)) := by
              rw [genIds_cons e t, ← Multiset.coe_add, add_assoc]

/-! ### Supporting lemmas: one open and one close tag per annotation -/

theorem openIds_rejMarkers (hov : Option (List Char)) :
    ∀ rs : List Rejection,
      (((rejMarkers hov rs).filter fun m => m.mtype = MType.mopen).map Marker.id) =
        rs.map Rejection.id := by
  intro rs
  induction rs with
  | nil => rfl
  | cons r rest ih => simp [rejMarkers, List.filter_cons, ih]

theorem closeIds_rejMarkers (hov : Option (List Char)) :
    ∀ rs : List Rejection,
      (((rejMarkers hov rs).filter fun m => m.mtype = MType.mclose).map Marker.id) =
        rs.map Rejection.id := by
  intro rs
  induction rs with
  | nil => rfl
  | cons r rest ih => simp [rejMarkers, List.filter_cons, ih]

theorem openIds_comMarkers (hov : Option (List Char)) :
    ∀ cs : List Comment,
      (((comMarkers hov cs).filter fun m => m.mtype = MType.mopen).map Marker.id) =
        cs.map Comment.id := by
  intro cs
  induction cs with
  | nil => rfl
  | cons c rest ih => simp [comMarkers, List.filter_cons, ih]

theorem closeIds_comMarkers (hov : Option (List Char)) :
    ∀ cs : List Comment,
      (((comMarkers hov cs).filter fun m => m.mtype = MType.mclose).map Marker.id) =
        cs.map Comment.id := by
  intro cs
  induction cs with
  | nil => rfl
  | cons c rest ih => simp [comMarkers, List.filter_cons, ih]

theorem openIds_buildMarkers (rs : List Rejection) (cs : List Comment)
    (hov : Option (List Char)) :
    (((buildMarkers rs cs hov).filter fun m => m.mtype = MType.mopen).map Marker.id) =
      rs.map Rejection.id ++ cs.map Comment.id := by
  simp [buildMarkers, List.filter_append, openIds_rejMarkers, openIds_comMarkers]

theorem closeIds_buildMarkers (rs : List Rejection) (cs : List Comment)
    (hov : Option (List Char)) :
    (((buildMarkers rs cs hov).filter fun m => m.mtype = MType.mclose).map Marker.id) =
      rs.map Rejection.id ++ cs.map Comment.id := by
  simp [buildMarkers, List.filter_append, closeIds_rejMarkers, closeIds_comMarkers]

/-- Structural description of the markers built for rejections. -/
theorem mem_rejMarkers_struct {hov : Option (List Char)} {m : Marker} :
    ∀ {rs : List Rejection}, m ∈ rejMarkers hov rs →
      ∃ r ∈ rs,
        m = ⟨r.startIndex, MType.mopen, if hov = some r.id then redEmph else redBase, r.id⟩ ∨
        m = ⟨r.endIndex, MType.mclose, [], r.id⟩ := by
  intro rs
  induction rs with
  | nil => intro h; simp [rejMarkers] at h
  | cons r rest ih =>
      intro h
      simp only [rejMarkers, List.mem_cons] at h
      rcases h with h | h | h
      · exact ⟨r, by simp, Or.inl h⟩
      · exact ⟨r, by simp, Or.inr h⟩
      · obtain ⟨r', hr', hm⟩ := ih h
        exact ⟨r', by simp [hr'], hm⟩

/-- Structural description of the markers built for comments. -/
theorem mem_comMarkers_struct {hov : Option (List Char)} {m : Marker} :
    ∀ {cs : List Comment}, m ∈ comMarkers hov cs →
      ∃ c ∈ cs,
        m = ⟨c.startIndex, MType.mopen, if hov = some c.id then indigoEmph else indigoBase, c.id⟩ ∨
        m = ⟨c.endIndex, MType.mclose, [], c.id⟩ := by
  intro cs
  induction cs with
  | nil => intro h; simp [comMarkers] at h
  | cons c rest ih =>
      intro h
      simp only [comMarkers, List.mem_cons] at h
      rcases h with h | h | h
      · exact ⟨c, by simp, Or.inl h⟩
      · exact ⟨c, by simp, Or.inr h⟩
      · obtain ⟨c', hc', hm⟩ := ih h
        exact ⟨c', by simp [hc'], hm⟩

/-- Every inserted tag contains exactly one markup-significant `<` as
long as the class and id texts are `<`-free. -/
theorem count_tagChars {m : Marker} (hc : m.cls.count '<' = 0) (hi : m.id.count '<' = 0) :
    (tagChars m).count '<' = 1 := by
  have hA : ("<span class=\"".data).count '<' = 1 := by decide
  have hB : ("\" data-id=\"".data).count '<' = 0 := by decide
  have hC : ("\">".data).count '<' = 0 := by decide
  have hD : ("</span>".data).count '<' = 1 := by decide
  cases ht : m.mtype <;> simp [tagChars, ht, List.count_append, hA, hB, hC, hD, hc, hi]

/-- The class text of every built marker is one of the four fixed
Tailwind literals or empty, hence `<`-free. -/
theorem cls_count_buildMarkers {rs : List Rejection} {cs : List Comment}
    {hov : Option (List Char)} {m : Marker} (hm : m ∈ buildMarkers rs cs hov) :
    m.cls.count '<' = 0 := by
  have hred : redBase.count '<' = 0 := by decide
  have hred' : redEmph.count '<' = 0 := by decide
  have hind : indigoBase.count '<' = 0 := by decide
  have hind' : indigoEmph.count '<' = 0 := by decide
  simp only [buildMarkers, List.mem_append] at hm
  rcases hm with hm | hm
  · obtain ⟨r, _, h | h⟩ := mem_rejMarkers_struct hm
    · rw [h]; dsimp only; split <;> assumption
    · rw [h]; rfl
  · obtain ⟨c, _, h | h⟩ := mem_comMarkers_struct hm
    · rw [h]; dsimp only; split <;> assumption
    · rw [h]; rfl

/-- The id of every built marker is one of the annotation ids. -/
theorem id_mem_buildMarkers {rs : List Rejection} {cs : List Comment}
    {hov : Option (List Char)} {m : Marker} (hm : m ∈ buildMarkers rs cs hov) :
    m.id ∈ rs.map Rejection.id ++ cs.map Comment.id := by
  simp only [buildMarkers, List.mem_append] at hm
  rcases hm with hm | hm
  · obtain ⟨r, hr, h | h⟩ := mem_rejMarkers_struct hm
    · rw [h]; simp; exact Or.inl ⟨r, hr, rfl⟩
    · rw [h]; simp; exact Or.inl ⟨r, hr, rfl⟩
  · obtain ⟨c, hc, h | h⟩ := mem_comMarkers_struct hm
    · rw [h]; simp; exact Or.inr ⟨c, hc, rfl⟩
    · rw [h]; simp; exact Or.inr ⟨c, hc, rfl⟩

theorem length_rejMarkers (hov : Option (List Char)) :
    ∀ rs : List Rejection, (rejMarkers hov rs).length = 2 * rs.length := by
  intro rs
  induction rs with
  | nil => rfl
  | cons r rest ih => simp [rejMarkers, ih]; omega

theorem length_comMarkers (hov : Option (List Char)) :
    ∀ cs : List Comment, (comMarkers hov cs).length = 2 * cs.length := by
  intro cs
  induction cs with
  | nil => rfl
  | cons c rest ih => simp [comMarkers, ih]; omega

theorem length_buildMarkers (rs : List Rejection) (cs : List Comment)
    (hov : Option (List Char)) :
    (buildMarkers rs cs hov).length = 2 * (rs.length + cs.length) := by
  simp [buildMarkers, length_rejMarkers, length_comMarkers]; omega

/-- Count of a character over the full decomposition: the text's own
occurrences plus the tags' occurrences. -/
theorem count_flattenSegs_segsOf (ms : List Marker) : ∀ text : List Char,
    descIdx ms → boundedIdx text.length ms →
    (flattenSegs (segsOf text ms)).count '<' =
      text.count '<' + (ms.map fun m => (tagChars m).count '<').sum := by
  induction ms with
  | nil => intro text _ _; simp [segsOf, flattenSegs]
  | cons m rest ih =>
      intro text hd hb
      have hm := hb m (by simp)
      have hrest : boundedIdx (text.take m.index.toNat).length rest := by
        intro m' hm'
        have h1 := (hb m' (by simp [hm'])).1
        have h2 := (List.pairwise_cons.mp hd).1 m' hm'
        simp only [List.length_take]
        omega
      simp only [segsOf, flattenSegs_append, flattenSegs, List.count_append]
      rw [ih (text.take m.index.toNat) (List.pairwise_cons.mp hd).2 hrest]
      have hsplit : (text.take m.index.toNat).count '<' + (text.drop m.index.toNat).count '<' =
          text.count '<' := by
        conv_rhs => rw [← List.take_append_drop m.index.toNat text]
        rw [List.count_append]
      simp only [List.map_cons, List.sum_cons, List.append_nil, List.count_nil]
      omega

/-- The closing-before-opening order of same-offset markers is reversed
textually by the back-to-front splicing: in the textual (reversed) order
no close marker ever precedes an open marker at the same offset. -/
theorem sortApp_reverse_no_close_before_open (ms : List Marker) :
    List.Pairwise
      (fun x y => x.index = y.index → ¬(x.mtype = MType.mclose ∧ y.mtype = MType.mopen))
      (sortApp ms).reverse := by
  apply List.pairwise_reverse.mpr
  apply (List.sorted_insertionSort rApp ms).imp
  intro a b hab
  intro hidx ⟨hbclose, haopen⟩
  simp only [rApp, mkey, haopen, hbclose, mrank] at hab
  omega

/-- Whatever the `Int` bounds, `sliceStr` extracts a contiguous piece of
the string. -/
theorem sliceStr_isInfix (s : List Char) (i j : Int) : sliceStr s i j <:+: s := by
  refine ⟨s.take i.toNat, ((s.drop i.toNat).drop (j - i).toNat), ?_⟩
  rw [sliceStr, List.append_assoc, List.take_append_drop, List.take_append_drop]

/-- The state after a successful text selection. -/
theorem handleTextSelection_found (st : EngineState) (raw canonical : List Char)
    (s : Nat) (h0 : raw ≠ []) (hf : firstMatch canonical raw = some s) :
    handleTextSelection st raw canonical =
      { st with
        selectedText := raw,
        selectionIndices := some ⟨(s : Int), (s : Int) + raw.length⟩ } := by
  have hlen : 0 < raw.length := List.length_pos.mpr h0
  rw [handleTextSelection, if_pos hlen]
  have hidx : jsIndexOf canonical raw = (s : Int) := by rw [jsIndexOf, hf]
  rw [hidx]

/-! ### Claim theorems -/

/-- C3: for every `rawSelectedString` occurring in `canonicalText`, the
resolver returns the range of the leftmost occurrence — `start` is the
index of the first match and `end = start + length raw` — even when the
user selected a later occurrence; in particular on
`"the cat sat on the mat"` and `"the"` it yields `{start := 0, stop := 3}`. -/
theorem resolver_first_match (st : EngineState) (raw canonical : List Char)
    (h0 : raw ≠ []) (hocc : ∃ j, raw <+: canonical.drop j) :
    (∃ s : Nat, jsIndexOf canonical raw = (s : Int) ∧
      raw <+: canonical.drop s ∧ (∀ j < s, ¬ raw <+: canonical.drop j) ∧
      (handleTextSelection st raw canonical).selectedText = raw ∧
      (handleTextSelection st raw canonical).selectionIndices =
        some ⟨(s : Int), (s : Int) + raw.length⟩) ∧
    jsIndexOf "the cat sat on the mat".data "the".data = 0 ∧
    (handleTextSelection initState "the".data "the cat sat on the mat".data).selectionIndices =
      some ⟨0, 3⟩ := by
  refine ⟨?_, by decide, by decide⟩
  obtain ⟨s, hf⟩ : ∃ s, firstMatch canonical raw = some s :=
    Option.isSome_iff_exists.mp (firstMatch_isSome hocc)
  obtain ⟨h1, h2⟩ := firstMatch_spec hf
  refine ⟨s, by rw [jsIndexOf, hf], h1, h2, ?_, ?_⟩
  · rw [handleTextSelection_found st raw canonical s h0 hf]
  · rw [handleTextSelection_found st raw canonical s h0 hf]

/-- C3 witness. -/
theorem resolver_first_match_witness :
    ("the".data ≠ ([] : List Char)) ∧
    (∃ j, "the".data <+: ("the cat sat on the mat".data).drop j) ∧
    (∃ s : Nat, jsIndexOf "the cat sat on the mat".data "the".data = (s : Int) ∧
      "the".data <+: ("the cat sat on the mat".data).drop s ∧
      (∀ j < s, ¬ "the".data <+: ("the cat sat on the mat".data).drop j) ∧
      (handleTextSelection initState "the".data "the cat sat on the mat".data).selectedText =
        "the".data ∧
      (handleTextSelection initState "the".data "the cat sat on the mat".data).selectionIndices =
        some ⟨(s : Int), (s : Int) + ("the".data).length⟩) :=
  ⟨by decide, ⟨0, by decide⟩,
    (resolver_first_match initState "the".data "the cat sat on the mat".data
      (by decide) ⟨0, by decide⟩).1⟩

/-- C4, amended: when the selected string does not occur in the canonical
text, `indexOf` returns `-1`, yet the source still activates the
selection with `start = -1` and `end = -1 + length raw`, and a subsequent
`addRejection` stores an annotation with exactly that range — the
attempted annotation is not discarded. -/
theorem selection_not_found (st : EngineState) (raw canonical : List Char) (now : Nat)
    (h0 : raw ≠ []) (hnf : firstMatch canonical raw = none) :
    handleTextSelection st raw canonical =
      { st with
        selectedText := raw,
        selectionIndices := some ⟨-1, -1 + raw.length⟩ } ∧
    (addRejection (handleTextSelection st raw canonical) now).rejections =
      st.rejections ++ [⟨(Nat.repr now).data, raw, -1, -1 + raw.length⟩] ∧
    (∀ j, ¬ raw <+: canonical.drop j) := by
  have hlen : 0 < raw.length := List.length_pos.mpr h0
  have hts : handleTextSelection st raw canonical =
      { st with
        selectedText := raw,
        selectionIndices := some ⟨-1, -1 + raw.length⟩ } := by
    rw [handleTextSelection, if_pos hlen]
    have hidx : jsIndexOf canonical raw = -1 := by rw [jsIndexOf, hnf]
    rw [hidx]
  refine ⟨hts, ?_, firstMatch_none hnf⟩
  rw [hts, addRejection_success _ now ⟨-1, -1 + raw.length⟩ rfl h0]

/-- C4 counterexample: with canonical text `"abc"` and selected string
`"xy"` (which does not occur), a range is produced (`{start := -1,
stop := 1}`), the selection becomes active, and an annotation is created
— refuting the claimed silent no-op. -/
theorem selection_not_found_cex :
    (handleTextSelection initState "xy".data "abc".data).selectedText = "xy".data ∧
    (handleTextSelection initState "xy".data "abc".data).selectionIndices =
      some ⟨-1, 1⟩ ∧
    (addRejection (handleTextSelection initState "xy".data "abc".data) 7).rejections =
      [⟨"7".data, "xy".data, -1, 1⟩] ∧
    (∀ j, ¬ "xy".data <+: ("abc".data).drop j) :=
  ⟨by decide, by decide, by decide, firstMatch_none (by decide)⟩

/-- C4 witness for the amended theorem. -/
theorem selection_not_found_witness :
    ("qq".data ≠ ([] : List Char)) ∧ firstMatch "risk".data "qq".data = none ∧
    handleTextSelection initState "qq".data "risk".data =
      { initState with
        selectedText := "qq".data,
        selectionIndices := some ⟨-1, -1 + ("qq".data).length⟩ } :=
  ⟨by decide, by decide,
    (selection_not_found initState "qq".data "risk".data 3 (by decide) (by decide)).1⟩

/-- C6: `addComment` with a note that trims to empty, and `addComment` or
`addRejection` without an active selection, are strict no-ops: the whole
state — in particular the stored annotation lists and hence the length of
any listing of them — is unchanged. -/
theorem add_rejected_noop (st : EngineState) (now : Nat) :
    ((jsTrim st.commentInput = [] ∨ st.selectedText = [] ∨ st.selectionIndices = none) →
      addComment st now = st) ∧
    ((st.selectedText = [] ∨ st.selectionIndices = none) → addRejection st now = st) := by
  constructor
  · intro h
    apply addComment_noop
    tauto
  · intro h
    exact addRejection_noop st now h

/-- C6 witness: a state with a valid active selection and a
whitespace-only note, and a state with no active selection. -/
theorem add_rejected_noop_witness :
    addComment
      { comments := [], rejections := [], selectedText := "a".data,
        selectionIndices := some ⟨0, 1⟩, commentInput := "   ".data,
        showCommentInput := true } 3 =
      { comments := [], rejections := [], selectedText := "a".data,
        selectionIndices := some ⟨0, 1⟩, commentInput := "   ".data,
        showCommentInput := true } ∧
    addRejection
      { comments := [], rejections := [], selectedText := [],
        selectionIndices := none, commentInput := "note".data,
        showCommentInput := false } 3 =
      { comments := [], rejections := [], selectedText := [],
        selectionIndices := none, commentInput := "note".data,
        showCommentInput := false } :=
  ⟨(add_rejected_noop _ 3).1 (Or.inl (by decide)),
    (add_rejected_noop _ 3).2 (Or.inl rfl)⟩

/-- C7: `removeAnnotation` (embedded as `removeAnn`) deletes exactly the
annotations carrying the given id from both variant lists through one
uniform path, is the identity when the id is absent, and is idempotent. -/
theorem remove_idempotent_uniform (st : EngineState) (i : List Char) :
    removeAnn (removeAnn st i) i = removeAnn st i ∧
    (removeAnn st i = st ↔
      (∀ c ∈ st.comments, c.id ≠ i) ∧ (∀ r ∈ st.rejections, r.id ≠ i)) ∧
    (∀ c : Comment, c ∈ (removeAnn st i).comments ↔ c ∈ st.comments ∧ c.id ≠ i) ∧
    (∀ r : Rejection, r ∈ (removeAnn st i).rejections ↔ r ∈ st.rejections ∧ r.id ≠ i) := by
  have hcf : (st.comments.filter (fun c => c.id ≠ i)).filter (fun c => c.id ≠ i) =
      st.comments.filter (fun c => c.id ≠ i) :=
    List.filter_eq_self.mpr fun a ha => (List.mem_filter.mp ha).2
  have hrf : (st.rejections.filter (fun r => r.id ≠ i)).filter (fun r => r.id ≠ i) =
      st.rejections.filter (fun r => r.id ≠ i) :=
    List.filter_eq_self.mpr fun a ha => (List.mem_filter.mp ha).2
  refine ⟨?_, ⟨?_, ?_⟩, ?_, ?_⟩
  · simp [removeAnn, hcf, hrf]
  · intro h
    constructor
    · intro c hc
      have hcomm : st.comments.filter (fun c => c.id ≠ i) = st.comments :=
        congrArg EngineState.comments h
      have := List.filter_eq_self.mp hcomm c hc
      simpa using this
    · intro r hr
      have hrej : st.rejections.filter (fun r => r.id ≠ i) = st.rejections :=
        congrArg EngineState.rejections h
      have := List.filter_eq_self.mp hrej r hr
      simpa using this
  · intro hcr
    obtain ⟨hc, hr⟩ := hcr
    obtain ⟨a, b, sc, si, ci, sh⟩ := st
    have h1 : a.filter (fun x => x.id ≠ i) = a :=
      List.filter_eq_self.mpr fun x hx => by simpa using hc x hx
    have h2 : b.filter (fun x => x.id ≠ i) = b :=
      List.filter_eq_self.mpr fun x hx => by simpa using hr x hx
    unfold removeAnn
    dsimp only
    rw [h1, h2]
  · intro c
    simp [removeAnn, List.mem_filter]
  · intro r
    simp [removeAnn, List.mem_filter]

/-- C7 witness: idempotence and uniform removal at a concrete store. -/
theorem remove_idempotent_uniform_witness :
    removeAnn
      (removeAnn
        { comments := [⟨"1".data, "n".data, "a".data, 0, 1⟩], rejections := [⟨"1".data, "a".data, 0, 1⟩],
          selectedText := [], selectionIndices := none, commentInput := [],
          showCommentInput := false } "1".data) "1".data =
      removeAnn
        { comments := [⟨"1".data, "n".data, "a".data, 0, 1⟩], rejections := [⟨"1".data, "a".data, 0, 1⟩],
          selectedText := [], selectionIndices := none, commentInput := [],
          showCommentInput := false } "1".data :=
  (remove_idempotent_uniform _ _).1

/-- C5, amended: ids are generated as `Date.now().toString()`, so they
are unique only as long as no two add operations observe the same clock
value.  Provided the id strings generated by the add events of a trace
are pairwise distinct, every reachable store has pairwise distinct ids,
and any id not generated in the trace is absent from the store (so a
fresh clock string is distinct from every stored id). -/
theorem generated_ids_unique (tr : List Ev) (h : (genIds tr).Nodup) :
    (idsOf (run initState tr)).Nodup ∧
    ∀ s, s ∉ genIds tr → s ∉ idsOf (run initState tr) := by
  have hle : (↑(idsOf (run initState tr)) : Multiset (List Char)) ≤ ↑(genIds tr) := by
    have h0 := idsOf_run_le tr initState
    simpa [idsOf, initState] using h0
  constructor
  · exact Multiset.coe_nodup.mp (Multiset.nodup_of_le hle (Multiset.coe_nodup.mpr h))
  · intro s hs hmem
    exact hs (Multiset.mem_coe.mp (Multiset.mem_of_le hle (Multiset.mem_coe.mpr hmem)))

/-- C5 counterexample: two `addRejection` calls that observe the same
`Date.now()` value (`5`, i.e. two adds inside one millisecond) store two
annotations carrying the same id `"5"`, so the new id is not distinct
from the existing one and the reachable store violates id uniqueness. -/
theorem generated_ids_unique_cex :
    idsOf (run initState [Ev.select "a".data "a".data, Ev.addR 5,
        Ev.select "a".data "a".data, Ev.addR 5]) = ["5".data, "5".data] ∧
    ¬ (idsOf (run initState [Ev.select "a".data "a".data, Ev.addR 5,
        Ev.select "a".data "a".data, Ev.addR 5])).Nodup :=
  ⟨by decide, by decide⟩

/-- C5 witness: with distinct clock values the amended uniqueness holds. -/
theorem generated_ids_unique_witness :
    (genIds [Ev.select "a".data "a".data, Ev.addR 5,
        Ev.select "a".data "a".data, Ev.addR 6]).Nodup ∧
    (idsOf (run initState [Ev.select "a".data "a".data, Ev.addR 5,
        Ev.select "a".data "a".data, Ev.addR 6])).Nodup :=
  ⟨by decide,
    (generated_ids_unique [Ev.select "a".data "a".data, Ev.addR 5,
      Ev.select "a".data "a".data, Ev.addR 6] (by decide)).1⟩

/-- C8, amended: when the selection resolver finds the raw string in the
canonical text, the annotation stored by `addRejection` or `addComment`
carries `selectedText = raw` and the range `[s, s + length raw)` of the
first match, and `raw` is exactly the substring of the canonical text at
that range.  (When the resolver does not find the string, the source
still stores the selection with range start `-1` — see the
counterexample — so the claim fails without the found hypothesis.) -/
theorem stored_text_is_substring (st : EngineState) (raw canonical : List Char)
    (now : Nat) (s : Nat) (h0 : raw ≠ [])
    (hf : firstMatch canonical raw = some s)
    (hnote : jsTrim st.commentInput ≠ []) :
    addRejection (handleTextSelection st raw canonical) now =
      { st with
        rejections := st.rejections ++
          [⟨(Nat.repr now).data, raw, (s : Int), (s : Int) + raw.length⟩],
        selectedText := [], selectionIndices := none, showCommentInput := false } ∧
    addComment (handleTextSelection st raw canonical) now =
      { st with
        comments := st.comments ++
          [⟨(Nat.repr now).data, st.commentInput, raw, (s : Int), (s : Int) + raw.length⟩],
        selectedText := [], selectionIndices := none,
        showCommentInput := false, commentInput := [] } ∧
    sliceStr canonical (s : Int) ((s : Int) + raw.length) = raw := by
  have hts := handleTextSelection_found st raw canonical s h0 hf
  refine ⟨?_, ?_, ?_⟩
  · rw [hts, addRejection_success _ now ⟨(s : Int), (s : Int) + raw.length⟩ rfl h0]
  · rw [hts]
    have hsucc := addComment_success
      { st with
        selectedText := raw,
        selectionIndices := some ⟨(s : Int), (s : Int) + raw.length⟩ }
      now ⟨(s : Int), (s : Int) + raw.length⟩ rfl h0 hnote
    rw [hsucc]
  · obtain ⟨t, ht⟩ := (firstMatch_spec hf).1
    have hdrop : canonical.drop s = raw ++ t := ht.symm
    rw [sliceStr]
    have h1 : ((s : Int)).toNat = s := Int.toNat_ofNat s
    have h2 : ((s : Int) + (raw.length : Int) - (s : Int)).toNat = raw.length := by omega
    rw [h1, h2, hdrop]
    exact List.take_left raw t

/-- C8 witness. -/
theorem stored_text_is_substring_witness :
    ("sat".data ≠ ([] : List Char)) ∧
    firstMatch "the cat sat".data "sat".data = some 8 ∧
    jsTrim ("note".data) ≠ [] ∧
    sliceStr "the cat sat".data ((8 : Nat) : Int) (((8 : Nat) : Int) + ("sat".data).length) =
      "sat".data :=
  ⟨by decide, by decide, by decide,
    (stored_text_is_substring
      { comments := [], rejections := [], selectedText := [], selectionIndices := none,
        commentInput := "note".data, showCommentInput := false }
      "sat".data "the cat sat".data 9 8 (by decide) (by decide) (by decide)).2.2⟩

/-- C8 counterexample: after selecting `"xy"` against canonical text
`"abc"` (no occurrence), `addRejection` stores an annotation whose
`selectedText` is `"xy"`, which is not the substring of the canonical
text at any range whatsoever — refuting the claim for that stored range. -/
theorem stored_text_is_substring_cex :
    (addRejection (handleTextSelection initState "xy".data "abc".data) 7).rejections =
      [⟨"7".data, "xy".data, -1, 1⟩] ∧
    (∀ i j : Int, sliceStr "abc".data i j ≠ "xy".data) := by
  refine ⟨by decide, ?_⟩
  intro i j heq
  have hsub := (sliceStr_isInfix "abc".data i j).sublist.subset
  have hx : 'x' ∈ "abc".data := hsub (by rw [heq]; decide)
  exact absurd hx (by decide)

/-- The half-open ranges of all annotations in the set. -/
def rangesOf (rs : List Rejection) (cs : List Comment) : List (Int × Int) :=
  rs.map (fun r => (r.startIndex, r.endIndex)) ++ cs.map (fun c => (c.startIndex, c.endIndex))

/-- Pairwise non-overlap of the annotation ranges. -/
def pairwiseNonOverlap (rs : List Rejection) (cs : List Comment) : Prop :=
  List.Pairwise (fun p q => p.2 ≤ q.1 ∨ q.2 ≤ p.1) (rangesOf rs cs)

instance (rs : List Rejection) (cs : List Comment) :
    Decidable (pairwiseNonOverlap rs cs) := by
  unfold pairwiseNonOverlap
  exact inferInstance

/-- Helper: if every list element maps to `1`, the mapped sum is the length. -/
theorem sum_map_ones (f : Marker → Nat) :
    ∀ l : List Marker, (∀ m ∈ l, f m = 1) → (l.map f).sum = l.length := by
  intro l
  induction l with
  | nil => intro _; rfl
  | cons m rest ih =>
      intro h
      simp only [List.map_cons, List.sum_cons, List.length_cons, h m (by simp)]
      rw [ih fun m' hm' => h m' (by simp [hm'])]
      omega

/-- The end-to-end scenario annotations of the spec, used as witnesses. -/
def demoText : List Char := "Risk A. Risk B.".data

def demoRej : Rejection := ⟨"101".data, "Risk A".data, 0, 6⟩

def demoCom : Comment := ⟨"102".data, "check this".data, "Risk B".data, 8, 14⟩

/-- C1: for every canonical text and annotation set with pairwise
non-overlapping in-bounds ranges, both renderers' outputs decompose via
`segsOf` into the original characters interleaved with the inserted span
tags, and stripping all inserted tags from the output yields the
canonical text exactly — no characters lost or duplicated.  (The
non-overlap hypothesis is stated by the claim but is not needed: the
back-to-front splicing loses no characters for any in-bounds set.) -/
theorem render_strip_roundtrip (text : List Char) (rs : List Rejection)
    (cs : List Comment) (hov : Option (List Char))
    (_hno : pairwiseNonOverlap rs cs) (hb : annBounds text.length rs cs) :
    (renderContentWithHighlights text rs cs hov =
        flattenSegs (segsOf text (sortApp (buildMarkers rs cs hov))) ∧
      stripSegs (segsOf text (sortApp (buildMarkers rs cs hov))) = text) ∧
    (renderReportWithHighlights text rs cs hov =
        flattenSegs (segsOf text (sortReport (buildMarkers rs cs hov))) ∧
      stripSegs (segsOf text (sortReport (buildMarkers rs cs hov))) = text) := by
  have hbd := @buildMarkers_bounded text.length rs cs hov hb
  have hbApp : boundedIdx text.length (sortApp (buildMarkers rs cs hov)) :=
    fun m hm => hbd m (mem_sortApp.mp hm)
  have hbRep : boundedIdx text.length (sortReport (buildMarkers rs cs hov)) :=
    fun m hm => hbd m (mem_sortReport.mp hm)
  exact ⟨⟨spliceAll_eq_flattenSegs _ text (sortApp_desc _) hbApp,
      stripSegs_segsOf _ text (sortApp_desc _) hbApp⟩,
    ⟨spliceAll_eq_flattenSegs _ text (sortReport_desc _) hbRep,
      stripSegs_segsOf _ text (sortReport_desc _) hbRep⟩⟩

/-- C1 witness: the spec's end-to-end scenario. -/
theorem render_strip_roundtrip_witness :
    pairwiseNonOverlap [demoRej] [demoCom] ∧
    annBounds demoText.length [demoRej] [demoCom] ∧
    stripSegs (segsOf demoText (sortApp (buildMarkers [demoRej] [demoCom] none))) = demoText :=
  ⟨by decide, by decide,
    (render_strip_roundtrip demoText [demoRej] [demoCom] none (by decide) (by decide)).1.2⟩

/-- The adjacent annotations of the C2 boundary case:
`adjRange1.end = adjRange2.start = 1` on the text `"AB"`. -/
def adjR1 : Rejection := ⟨"1".data, "A".data, 0, 1⟩

def adjR2 : Rejection := ⟨"2".data, "B".data, 1, 2⟩

/-- C2 counterexample: on text `"AB"` with adjacent ranges `[0,1)` and
`[1,2)`, the textual tag order of the output (the reversed sorted marker
list, which `segsOf` realises textually) places `adjR2`'s open tag at
position 1 and `adjR1`'s close tag at position 2 — the open tag of the
second range is emitted strictly BEFORE the close tag of the first,
refuting the claimed close-before-open order.  The rendered string shows
it concretely: `...data-id="1">A<span ... data-id="2"></span>B</span>`. -/
theorem adjacent_close_before_open_cex :
    (sortApp (buildMarkers [adjR1, adjR2] [] none)).reverse =
      [⟨0, MType.mopen, redBase, "1".data⟩,
       ⟨1, MType.mopen, redBase, "2".data⟩,
       ⟨1, MType.mclose, [], "1".data⟩,
       ⟨2, MType.mclose, [], "2".data⟩] ∧
    (sortApp (buildMarkers [adjR1, adjR2] [] none)).reverse.indexOf
        ⟨1, MType.mopen, redBase, "2".data⟩ = 1 ∧
    (sortApp (buildMarkers [adjR1, adjR2] [] none)).reverse.indexOf
        ⟨1, MType.mclose, [], "1".data⟩ = 2 ∧
    tagSegs (segsOf "AB".data (sortApp (buildMarkers [adjR1, adjR2] [] none))) =
      ((sortApp (buildMarkers [adjR1, adjR2] [] none)).reverse).map tagChars ∧
    renderContentWithHighlights "AB".data [adjR1, adjR2] [] none =
      ("<span class=\"bg-red-500/20\" data-id=\"1\">A" ++
        "<span class=\"bg-red-500/20\" data-id=\"2\"></span>B</span>").data := by
  refine ⟨by decide, by decide, by decide, ?_, by decide⟩
  rw [tagSegs_segsOf]
  exact (List.map_reverse _ _).symm

/-- C2, amended: for markers at the same offset the splice loop processes
closes first and each later insertion lands in front of the earlier one,
so in textual output order no close tag ever precedes an open tag at the
same offset: when `range1.end = range2.start`, range2's OPEN tag is
emitted strictly before range1's CLOSE tag (the opposite of the claimed
order). -/
theorem adjacent_open_before_close (text : List Char) (rs : List Rejection)
    (cs : List Comment) (hov : Option (List Char))
    (hb : annBounds text.length rs cs) :
    List.Pairwise
      (fun x y => x.index = y.index → ¬(x.mtype = MType.mclose ∧ y.mtype = MType.mopen))
      (sortApp (buildMarkers rs cs hov)).reverse ∧
    tagSegs (segsOf text (sortApp (buildMarkers rs cs hov))) =
      ((sortApp (buildMarkers rs cs hov)).reverse).map tagChars ∧
    renderContentWithHighlights text rs cs hov =
      flattenSegs (segsOf text (sortApp (buildMarkers rs cs hov))) := by
  have hbd := @buildMarkers_bounded text.length rs cs hov hb
  have hbApp : boundedIdx text.length (sortApp (buildMarkers rs cs hov)) :=
    fun m hm => hbd m (mem_sortApp.mp hm)
  refine ⟨sortApp_reverse_no_close_before_open _, ?_,
    spliceAll_eq_flattenSegs _ text (sortApp_desc _) hbApp⟩
  rw [tagSegs_segsOf]
  exact (List.map_reverse _ _).symm

/-- C2 witness for the amended theorem. -/
theorem adjacent_open_before_close_witness :
    annBounds ("AB".data).length [adjR1, adjR2] [] ∧
    List.Pairwise
      (fun x y => x.index = y.index → ¬(x.mtype = MType.mclose ∧ y.mtype = MType.mopen))
      (sortApp (buildMarkers [adjR1, adjR2] [] none)).reverse :=
  ⟨by decide,
    (adjacent_open_before_close "AB".data [adjR1, adjR2] [] none (by decide)).1⟩

/-- C9: changing the hover id from `h1` to `h2` leaves the sorted marker
lists of both renderers in positionwise correspondence — same offsets,
same types, same ids — with the class allowed to differ only on open
markers of the annotation(s) actually hovered, and each render output is
the text interleaved with exactly those markers' tags.  Hence the two
outputs differ at most in the class attribute of the hovered spans'
open tags: every other span's class, every `data-id`, and all literal
text are unchanged. -/
theorem hover_isolation (text : List Char) (rs : List Rejection) (cs : List Comment)
    (h1 h2 : Option (List Char)) (hb : annBounds text.length rs cs) :
    List.Forall₂ (markerShapeRel h1 h2)
      (sortApp (buildMarkers rs cs h1)) (sortApp (buildMarkers rs cs h2)) ∧
    List.Forall₂ (markerShapeRel h1 h2)
      (sortReport (buildMarkers rs cs h1)) (sortReport (buildMarkers rs cs h2)) ∧
    renderContentWithHighlights text rs cs h1 =
      flattenSegs (segsOf text (sortApp (buildMarkers rs cs h1))) ∧
    renderContentWithHighlights text rs cs h2 =
      flattenSegs (segsOf text (sortApp (buildMarkers rs cs h2))) ∧
    renderReportWithHighlights text rs cs h1 =
      flattenSegs (segsOf text (sortReport (buildMarkers rs cs h1))) ∧
    renderReportWithHighlights text rs cs h2 =
      flattenSegs (segsOf text (sortReport (buildMarkers rs cs h2))) := by
  have hcongA : ∀ a b a' b', markerShapeRel h1 h2 a b → markerShapeRel h1 h2 a' b' →
      (rApp a a' ↔ rApp b b') := by
    intro a b a' b' hab hab'
    rw [rApp, rApp, (markerShapeRel_mkey hab).1, (markerShapeRel_mkey hab').1]
  have hcongR : ∀ a b a' b', markerShapeRel h1 h2 a b → markerShapeRel h1 h2 a' b' →
      (rReport a a' ↔ rReport b b') := by
    intro a b a' b' hab hab'
    rw [rReport, rReport, (markerShapeRel_mkey hab).2, (markerShapeRel_mkey hab').2]
  have hbd1 := @buildMarkers_bounded text.length rs cs h1 hb
  have hbd2 := @buildMarkers_bounded text.length rs cs h2 hb
  refine ⟨forall2_insertionSort rApp _ hcongA (forall2_buildMarkers rs cs h1 h2),
    forall2_insertionSort rReport _ hcongR (forall2_buildMarkers rs cs h1 h2),
    spliceAll_eq_flattenSegs _ text (sortApp_desc _)
      (fun m hm => hbd1 m (mem_sortApp.mp hm)),
    spliceAll_eq_flattenSegs _ text (sortApp_desc _)
      (fun m hm => hbd2 m (mem_sortApp.mp hm)),
    spliceAll_eq_flattenSegs _ text (sortReport_desc _)
      (fun m hm => hbd1 m (mem_sortReport.mp hm)),
    spliceAll_eq_flattenSegs _ text (sortReport_desc _)
      (fun m hm => hbd2 m (mem_sortReport.mp hm))⟩

/-- C9 witness: hovering the rejection id versus hovering nothing in the
spec's end-to-end scenario. -/
theorem hover_isolation_witness :
    annBounds demoText.length [demoRej] [demoCom] ∧
    List.Forall₂ (markerShapeRel (some ("101".data)) none)
      (sortApp (buildMarkers [demoRej] [demoCom] (some ("101".data))))
      (sortApp (buildMarkers [demoRej] [demoCom] none)) :=
  ⟨by decide,
    (hover_isolation demoText [demoRej] [demoCom] (some ("101".data)) none (by decide)).1⟩

/-- C10: each annotation contributes exactly one open marker (carrying
its id) and one close marker, for any set including overlapping or
crossing in-bounds ranges: the open-marker ids and close-marker ids of
both renderers' sorted marker lists are a permutation of the annotation
ids; on `<`-free text and ids the rendered output contains exactly
`2 * n` tag-opening `<` characters for `n` annotations; and rendering
the empty annotation set returns the canonical text unchanged. -/
theorem one_tag_pair_per_ann (text : List Char) (rs : List Rejection)
    (cs : List Comment) (hov : Option (List Char))
    (hb : annBounds text.length rs cs)
    (htext : text.count '<' = 0)
    (hids : ∀ s ∈ rs.map Rejection.id ++ cs.map Comment.id, List.count '<' s = 0) :
    renderContentWithHighlights text [] [] hov = text ∧
    renderReportWithHighlights text [] [] hov = text ∧
    List.Perm
      (((sortApp (buildMarkers rs cs hov)).filter fun m => m.mtype = MType.mopen).map Marker.id)
      (rs.map Rejection.id ++ cs.map Comment.id) ∧
    List.Perm
      (((sortApp (buildMarkers rs cs hov)).filter fun m => m.mtype = MType.mclose).map Marker.id)
      (rs.map Rejection.id ++ cs.map Comment.id) ∧
    List.Perm
      (((sortReport (buildMarkers rs cs hov)).filter fun m => m.mtype = MType.mopen).map Marker.id)
      (rs.map Rejection.id ++ cs.map Comment.id) ∧
    List.Perm
      (((sortReport (buildMarkers rs cs hov)).filter fun m => m.mtype = MType.mclose).map Marker.id)
      (rs.map Rejection.id ++ cs.map Comment.id) ∧
    (renderContentWithHighlights text rs cs hov).count '<' = 2 * (rs.length + cs.length) ∧
    (renderReportWithHighlights text rs cs hov).count '<' = 2 * (rs.length + cs.length) := by
  have hbd := @buildMarkers_bounded text.length rs cs hov hb
  have hbApp : boundedIdx text.length (sortApp (buildMarkers rs cs hov)) :=
    fun m hm => hbd m (mem_sortApp.mp hm)
  have hbRep : boundedIdx text.length (sortReport (buildMarkers rs cs hov)) :=
    fun m hm => hbd m (mem_sortReport.mp hm)
  have hpermA := List.perm_insertionSort rApp (buildMarkers rs cs hov)
  have hpermR := List.perm_insertionSort rReport (buildMarkers rs cs hov)
  have htag : ∀ sorted : List Marker, (∀ m ∈ sorted, m ∈ buildMarkers rs cs hov) →
      (sorted.map fun m => (tagChars m).count '<').sum = sorted.length := by
    intro sorted hmem
    apply sum_map_ones
    intro m hm
    exact count_tagChars (cls_count_buildMarkers (hmem m hm))
      (hids m.id (id_mem_buildMarkers (hmem m hm)))
  refine ⟨rfl, rfl, ?_, ?_, ?_, ?_, ?_, ?_⟩
  · have h := (hpermA.filter (fun m => m.mtype = MType.mopen)).map Marker.id
    rw [openIds_buildMarkers] at h
    exact h
  · have h := (hpermA.filter (fun m => m.mtype = MType.mclose)).map Marker.id
    rw [closeIds_buildMarkers] at h
    exact h
  · have h := (hpermR.filter (fun m => m.mtype = MType.mopen)).map Marker.id
    rw [openIds_buildMarkers] at h
    exact h
  · have h := (hpermR.filter (fun m => m.mtype = MType.mclose)).map Marker.id
    rw [closeIds_buildMarkers] at h
    exact h
  · show (spliceAll text (sortApp (buildMarkers rs cs hov))).count '<' = _
    rw [spliceAll_eq_flattenSegs _ text (sortApp_desc _) hbApp,
      count_flattenSegs_segsOf _ text (sortApp_desc _) hbApp, htext,
      htag _ (fun m hm => mem_sortApp.mp hm)]
    rw [sortApp, List.length_insertionSort, length_buildMarkers]
    omega
  · show (spliceAll text (sortReport (buildMarkers rs cs hov))).count '<' = _
    rw [spliceAll_eq_flattenSegs _ text (sortReport_desc _) hbRep,
      count_flattenSegs_segsOf _ text (sortReport_desc _) hbRep, htext,
      htag _ (fun m hm => mem_sortReport.mp hm)]
    rw [sortReport, List.length_insertionSort, length_buildMarkers]
    omega

/-- C10 witness: an overlapping (crossing) pair of annotations. -/
theorem one_tag_pair_per_ann_witness :
    annBounds demoText.length [⟨"7".data, "isk A. Ri".data, 1, 10⟩] [demoCom] ∧
    (demoText.count '<' = 0) ∧
    (∀ s ∈ ([⟨"7".data, "isk A. Ri".data, 1, 10⟩] : List Rejection).map Rejection.id ++
        ([demoCom] : List Comment).map Comment.id, List.count '<' s = 0) ∧
    (renderContentWithHighlights demoText
        [⟨"7".data, "isk A. Ri".data, 1, 10⟩] [demoCom] none).count '<' = 2 * (1 + 1) :=
  ⟨by decide, by decide, by decide,
    (one_tag_pair_per_ann demoText [⟨"7".data, "isk A. Ri".data, 1, 10⟩] [demoCom]
      none (by decide) (by decide) (by decide)).2.2.2.2.2.2.1⟩

end RiskUI
